import Mathlib

/-!
# Verification of the PennyLane operator core (`pennylane/operation.py`)

This file gives a shallow embedding of the operator data model of
`src/pennylane/operation.py` and proves, or refutes, a list of claims about it.

Conventions:
* Complex matrix entries are Gaussian integers (`GaussianInt`), which is enough
  to express the Pauli matrices and arbitrary integer test matrices exactly;
  matrices are lists of rows.
* Python exceptions become `Except`; a Python function that can raise returns
  an `Except` value, so "no partial object is produced" is structural.
* Wire labels are integers.  The `Wires` utility class (`pennylane/wires.py`)
  is not part of the sources; the few operations we need from it are modelled
  from the spec (each such definition is marked `Modelled from the spec:`).
-/

/-! ## Gaussian-integer matrices as lists of rows -/

abbrev GInt := GaussianInt

abbrev GMat := List (List GInt)

/-- Complex conjugation of a Gaussian integer (`qml.math.conj` entrywise). -/
def gconj (z : GInt) : GInt := ⟨z.re, -z.im⟩

/-- Dot product of two rows. -/
def dotRow (r c : List GInt) : GInt := (List.zipWith (fun a b => a * b) r c).sum

/-- Matrix product (`numpy.dot` / `multi_dot` building block). -/
def matMulM (a b : GMat) : GMat :=
  a.map (fun row => b.transpose.map (fun col => dotRow row col))

/-- Kronecker product (`numpy.kron` / `scipy.sparse.kron` on the stored values). -/
def kronM (a b : GMat) : GMat :=
  a.flatMap (fun ra => b.map (fun rb => ra.flatMap (fun x => rb.map (fun y => x * y))))

/-- Conjugate transpose, `qml.math.conj(qml.math.T(m))` as used by
`Operation.matrix` (operation.py:1443). -/
def conjTM (m : GMat) : GMat := m.transpose.map (fun row => row.map gconj)

/-- The 2x2 identity, `scipy.sparse.eye(2)` (values). -/
def eye2 : GMat := [[1, 0], [0, 1]]

/-! ## Python exceptions of the representation protocol (operation.py:212-247)

`EigvalsUndefinedError` carries an optional cause, modelling Python's
`raise ... from e` chaining used in `Operator.eigvals` (operation.py:765). -/

inductive PyErr
  | matrixUndefined
  | eigvalsUndefined (cause : Option PyErr)
  deriving Repr

/-! ## C6: the `inverse` flag of `Operation` (operation.py:1419-1448)

An `Operation`, for the purposes of the inversion claims, is its canonical
matrix (the value `compute_matrix(*self.parameters, **self.hyperparameters)`
would return, or `none` when the subclass does not define `compute_matrix`,
in which case the static method raises `MatrixUndefinedError`) together with
the mutable `inverse` flag (`self._inverse`, initialised to `False` in
`Operation.__init__`, operation.py:1476). -/

structure OperationState where
  computeMatrix : Option GMat
  inverse : Bool
  deriving DecidableEq, Repr

/-- `Operation.inv` (operation.py:1419-1437), outside a recording context:
`self.inverse = not self._inverse` and the same object is returned. -/
def OperationState.inv (s : OperationState) : OperationState :=
  { s with inverse := !s.inverse }

/-- `Operation.matrix` (operation.py:1439-1448) with `wire_order=None`:
computes the canonical matrix and conjugate-transposes it when the `inverse`
flag is set.  `compute_matrix` raising `MatrixUndefinedError` becomes the
`Except.error` branch. -/
def OperationState.matrix (s : OperationState) : Except PyErr GMat :=
  match s.computeMatrix with
  | none => .error .matrixUndefined
  | some canonical => .ok (if s.inverse then conjTM canonical else canonical)

/-! ## C7: `Operator.eigvals` fallback (operation.py:728-765) -/

/-- An `Operator`, for the eigenvalue-protocol claim: the value of
`compute_eigvals(*parameters, **hyperparameters)` (or `none` when the
subclass does not override it, in which case the default raises
`EigvalsUndefinedError`, operation.py:726), and likewise for
`compute_matrix` (operation.py:560). -/
structure OperatorRep where
  computeEigvals : Option (List GInt)
  computeMatrix : Option GMat
  deriving DecidableEq, Repr

/-- `Operator.matrix` (operation.py:562-606) with `wire_order=None`: just the
canonical matrix, or `MatrixUndefinedError`. -/
def OperatorRep.matrixMethod (op : OperatorRep) : Except PyErr GMat :=
  match op.computeMatrix with
  | none => .error .matrixUndefined
  | some m => .ok m

/-- `Operator.eigvals` (operation.py:757-765).  `try: return
self.compute_eigvals(...)` — the `except EigvalsUndefinedError` branch falls
back to `np.linalg.eigvals(self.matrix())`, and an inner
`MatrixUndefinedError` is re-raised as `EigvalsUndefinedError from e`.
`np.linalg.eigvals` is an external numerical routine (spec section 6) and is
passed in as a parameter. -/
def OperatorRep.eigvalsMethod (linalgEigvals : GMat → List GInt)
    (op : OperatorRep) : Except PyErr (List GInt) :=
  match op.computeEigvals with
  | some v => .ok v
  | none =>
    match op.matrixMethod with
    | .ok m => .ok (linalgEigvals m)
    | .error .matrixUndefined => .error (.eigvalsUndefined (some .matrixUndefined))
    | .error e => .error e

/-! ## C1: the `hash` property of `Operator`

The class body of `Operator` defines the property `hash` twice.  The first
definition (operation.py:517-520) returns
`hash((str(self.name), tuple(self.wires.tolist()), _process_data(self)))`,
where `_process_data` (operation.py:355-366) canonicalizes rotation-family
angles modulo 2*pi (4*pi for the controlled families) rounded to 10 digits.
The second definition (operation.py:1236-1250) occurs later in the same class
body, so in Python it shadows the first.  Its body selects a local
`data_string` through the same `if self.name in ("RX", ...)` canonicalization
cascade but contains **no return statement**: the property therefore evaluates
to `None` for every operator, contradicting its own docstring
("int: returns an integer hash uniquely representing the operator"). -/

/-- A concrete operator for the hash claim: name, wire labels, float
parameters (modelled as rationals; their value is irrelevant because the
effective `hash` body discards them). -/
structure SimpleOp where
  name : String
  wires : List ℤ
  data : List ℚ
  deriving DecidableEq, Repr

/-- The *effective* `hash` property (operation.py:1236-1250): the Python body
computes a dead local `data_string` and falls off the end, returning `None`.
The `Option ℤ` is the integer-or-None a caller observes. -/
def SimpleOp.hashProp (_op : SimpleOp) : Option ℤ := none

/-! ## C10: `Observable.__init__` (operation.py:1603-1615) and
`Operator.__init__` (operation.py:903-941) -/

/-- The declared `num_wires` of an operator class (operation.py:255-270):
`AnyWires` (-1), `AllWires` (0), or a fixed positive count. -/
inductive WiresDecl
  | anyWires
  | allWires
  | fixed (n : ℕ)
  deriving DecidableEq, Repr

/-- A positional argument of a constructor call: a numeric parameter or a
wire-label sequence. -/
inductive Arg
  | param (x : ℚ)
  | wireList (ws : List ℤ)
  deriving DecidableEq, Repr

/-- Modelled from the spec: the `Wires` constructor (`pennylane/wires.py`, not
in src/) wraps its argument into an ordered label sequence; a non-iterable
single value becomes a one-label sequence.  A numeric parameter value is kept
as an opaque single label (its label identity does not matter for the claims). -/
def wiresOfArg : Arg → List ℤ
  | .param _ => [0]
  | .wireList ws => ws

/-- The constructed operator state: stored `data` (parameters) and wires. -/
structure InitState where
  data : List Arg
  wires : List ℤ
  deriving DecidableEq, Repr

/-- `Operator.__init__` (operation.py:903-941): requires `wires` to be given,
checks the parameter count against `num_params` (which defaults to the number
of parameters received but may be fixed by the subclass, operation.py:950-962),
converts `wires` via the `Wires` constructor, checks the wire count against
the declared `num_wires`, then stores the data.  (The `do_queue` interaction
with the external recording context is out of scope.) -/
def operatorInit (numWires : WiresDecl) (fixedNumParams : Option ℕ)
    (params : List Arg) (wires : Option Arg) : Except String InitState :=
  match wires with
  | none => .error "Must specify the wires that the operator acts on"
  | some wl =>
    let expected := fixedNumParams.getD params.length
    if params.length ≠ expected then
      .error "wrong number of parameters"
    else
      let ws := wiresOfArg wl
      match numWires with
      | .fixed n =>
        if ws.length ≠ n then .error "wrong number of wires"
        else .ok ⟨params, ws⟩
      | _ => .ok ⟨params, ws⟩

/-- `Observable.__init__` (operation.py:1603-1615): when the `wires` keyword
is absent, the last positional argument is popped off and used as the wires
(`wires = params[-1]; params = params[:-1]`); with no positional arguments the
`IndexError` is converted into the must-specify-wires `ValueError`. -/
def observableInit (numWires : WiresDecl) (fixedNumParams : Option ℕ)
    (params : List Arg) (wires : Option Arg) : Except String InitState :=
  match wires with
  | none =>
    match params.getLast? with
    | none => .error "Must specify the wires that the Observable acts on"
    | some w => operatorInit numWires fixedNumParams params.dropLast (some w)
  | some wl => operatorInit numWires fixedNumParams params (some wl)

/-! ## Concrete observables (the universe for the `Tensor` claims)

Pauli observables, `Identity`, and a `Hermitian`-style observable carrying an
arbitrary matrix on an arbitrary wire list.  (`Hadamard` is omitted from this
universe because its matrix entries are not Gaussian integers; none of the
claims need it.) -/

inductive PObs
  | pauliX (w : ℤ)
  | pauliY (w : ℤ)
  | pauliZ (w : ℤ)
  | identityObs (w : ℤ)
  | hermitian (m : GMat) (ws : List ℤ)
  deriving DecidableEq, Repr

/-- The wires of a concrete observable (`op.wires` label list). -/
def PObs.wires : PObs → List ℤ
  | .pauliX w => [w]
  | .pauliY w => [w]
  | .pauliZ w => [w]
  | .identityObs w => [w]
  | .hermitian _ ws => ws

/-- The canonical matrix of a concrete observable (its `compute_matrix`). -/
def PObs.matrix : PObs → GMat
  | .pauliX _ => [[0, 1], [1, 0]]
  | .pauliY _ => [[0, ⟨0, -1⟩], [⟨0, 1⟩, 0]]
  | .pauliZ _ => [[1, 0], [0, -1]]
  | .identityObs _ => [[1, 0], [0, 1]]
  | .hermitian m _ => m

/-- Modelled from the spec: `Wires.all_wires` (wires.py, not in src/) — the
union of the given wire sequences, keeping the first-seen order and dropping
duplicates (spec sections 2 and 3). -/
def allWiresUnion (ls : List (List ℤ)) : List ℤ :=
  ls.flatten.foldl (fun acc x => if x ∈ acc then acc else acc ++ [x]) []

/-- `Tensor.wires` (operation.py:1845-1852): union of the constituent wires. -/
def tensorWiresOf (obs : List PObs) : List ℤ := allWiresUnion (obs.map PObs.wires)

/-! ## C8: Tensor construction flattens (operation.py:1743-1747, 1780-1805)

A Python value passed to (or stored by) a `Tensor` is a plain observable, a
`Tensor` object (characterised by its `obs` list), or something that is not an
`Observable` at all. -/

inductive PyVal
  | obsVal (o : PObs)
  | tensorVal (obs : List PyVal)
  | nonObservable
  deriving Repr

/-- Whether a stored value is a plain (non-Tensor) observable. -/
def PyVal.isPlainObs : PyVal → Bool
  | .obsVal _ => true
  | _ => false

/-- `Tensor.__init__` / `Tensor.queue(init=True)` (operation.py:1743-1794):
builds the `obs` list by iterating over the constructor arguments — a `Tensor`
argument contributes its own `obs` entries (`self.obs.extend(o.obs)`), a plain
`Observable` is appended, anything else raises the tensor-products
`ValueError`.  (The `isinstance(o, Tensor)` test comes first, as in the
source; the recording-context interaction is out of scope.) -/
def tensorInitGo (acc : List PyVal) : List PyVal → Except String (List PyVal)
  | [] => .ok acc
  | a :: rest =>
    match a with
    | .tensorVal o => tensorInitGo (acc ++ o) rest
    | .obsVal o => tensorInitGo (acc ++ [PyVal.obsVal o]) rest
    | .nonObservable =>
        .error "Can only perform tensor products between observables."

/-- The `obs` list a `Tensor(*args)` construction produces (see
`tensorInitGo` for the per-argument case split of the source loop, which
starts from the empty `self.obs` set in `__init__`). -/
def tensorInitObs (args : List PyVal) : Except String (List PyVal) :=
  tensorInitGo [] args

/-- A constructor argument that is admissible and keeps the `obs` list free of
`Tensor` entries: a plain observable, or a `Tensor` whose own `obs` list is
already flat (which the construction invariant guarantees). -/
def PyVal.flatArg : PyVal → Bool
  | .obsVal _ => true
  | .tensorVal l => l.all PyVal.isPlainObs
  | .nonObservable => false

/-- Pure content of `Tensor.__matmul__` (operation.py:1892-1909): the new
`obs` list after `t @ other`. -/
def tensorMatmulObs (tobs : List PyVal) (other : PyVal) :
    Except String (List PyVal) :=
  match other with
  | .tensorVal o => .ok (tobs ++ o)
  | .obsVal o => .ok (tobs ++ [PyVal.obsVal o])
  | .nonObservable =>
      .error "Can only perform tensor products between observables."

/-- Pure content of `Tensor.__rmatmul__` (operation.py:1911-1918): the new
`obs` list after `other @ t` for a plain observable (`self.obs[:0] = [other]`).
A `Tensor` left operand never reaches this method through the `@` operator
(its own `__matmul__` handles that case), and any non-`Observable` raises. -/
def tensorRmatmulObs (tobs : List PyVal) (other : PyVal) :
    Except String (List PyVal) :=
  match other with
  | .obsVal o => .ok (PyVal.obsVal o :: tobs)
  | .tensorVal o => .ok (PyVal.tensorVal o :: tobs)
  | .nonObservable =>
      .error "Can only perform tensor products between observables."

/-! ## C9: in-place mutation and object identity of the `@` operations

A minimal heap of `Tensor` objects makes "mutates t in place and returns the
same object t" expressible: the operations take an object id, update the heap
at that id only, and return the id of the object they return. -/

/-- The instance fields of a `Tensor` object (operation.py:1743-1747 plus the
class attribute `return_type` which `prune` copies per instance). -/
structure TensorObj where
  obs : List PyVal
  eigvalsCache : Option (List ℤ)
  returnType : Option String
  initArgs : List PyVal

/-- A heap of `Tensor` objects indexed by object id. -/
def THeap := ℕ → TensorObj

/-- Update one object of the heap. -/
def heapUpdate (h : THeap) (i : ℕ) (t : TensorObj) : THeap :=
  fun j => if j = i then t else h j

/-- The right-hand operand of `@`: another `Tensor` object (by reference), a
plain observable, or a non-observable. -/
inductive OperandRef
  | tensorRef (tid : ℕ)
  | obsVal (o : PObs)
  | nonObservable

/-- `Tensor.__matmul__` (operation.py:1892-1909) outside a recording context:
extends `self.obs` by the other tensor's `obs` (or appends a plain
observable) and returns `self`. -/
def tensorMatmulH (h : THeap) (tid : ℕ) (other : OperandRef) :
    Except String (THeap × ℕ) :=
  match other with
  | .tensorRef oid =>
      let t := h tid
      .ok (heapUpdate h tid { t with obs := t.obs ++ (h oid).obs }, tid)
  | .obsVal o =>
      let t := h tid
      .ok (heapUpdate h tid { t with obs := t.obs ++ [PyVal.obsVal o] }, tid)
  | .nonObservable =>
      .error "Can only perform tensor products between observables."

/-- `Tensor.__rmatmul__` (operation.py:1911-1918) outside a recording context
for a plain observable left operand: prepends it (`self.obs[:0] = [other]`)
and returns `self`. -/
def tensorRmatmulH (h : THeap) (tid : ℕ) (o : PObs) :
    Except String (THeap × ℕ) :=
  let t := h tid
  .ok (heapUpdate h tid { t with obs := PyVal.obsVal o :: t.obs }, tid)

/-- `Observable.__matmul__` (operation.py:1629-1636) when the right operand is
a `Tensor`: delegates to the tensor's `__rmatmul__`. -/
def observableMatmulTensorH (h : THeap) (o : PObs) (tid : ℕ) :
    Except String (THeap × ℕ) :=
  tensorRmatmulH h tid o

/-! ## C5: `Tensor.matrix` (operation.py:1980-2058) -/

/-- Consecutive grouping of the constituents by exact wire labels
(`itertools.groupby(self.obs, lambda x: x.wires.labels)`, operation.py:2028). -/
def groupRuns : List PObs → List (List PObs)
  | [] => []
  | a :: rest =>
    match groupRuns rest with
    | [] => [[a]]
    | g :: gs =>
      match g with
      | [] => [a] :: gs
      | b :: _ => if a.wires = b.wires then (a :: g) :: gs else [a] :: g :: gs

/-- `numpy.linalg.multi_dot` (external, spec section 6), modelled as the
left-associated chain product to which it is mathematically equal. -/
def multiDot : List GMat → GMat
  | [] => []
  | m :: rest => rest.foldl matMulM m

/-- One factor of `Tensor.matrix` (operation.py:2028-2037): the matrices of a
same-wires run multiplied into a single block. -/
def runBlock (g : List PObs) : GMat := multiDot (g.map PObs.matrix)

/-- The `U_list` of `Tensor.matrix`. -/
def tensorBlocks (obs : List PObs) : List GMat := (groupRuns obs).map runBlock

/-- `mat_size` (operation.py:2039): product of the block dimensions. -/
def tensorMatSize (obs : List PObs) : ℕ :=
  ((tensorBlocks obs).map (fun m => m.length)).prod

/-- `functools.reduce(np.kron, U_list)` (operation.py:2058); like `reduce`
without an initializer it fails on an empty list (TypeError). -/
def reduceKron : List GMat → Except String GMat
  | [] => .error "reduce of empty sequence with no initial value"
  | u :: us => .ok (us.foldl kronM u)

/-- `Tensor.matrix` (operation.py:1980-2058): rejects a `wire_order` argument;
groups the constituents into consecutive same-wires runs and multiplies each
run into one block; *warns* — the Boolean in the result, covering both warning
messages (operation.py:2041-2054) — when the combined size differs from
2^(number of distinct wires); returns the Kronecker product of the blocks. -/
def tensorMatrixMethod (obs : List PObs) (wireOrder : Option (List ℤ)) :
    Except String (Bool × GMat) :=
  match wireOrder with
  | some _ => .error "The wire_order argument is currently not implemented."
  | none =>
    let warned : Bool := decide (tensorMatSize obs ≠ 2 ^ (tensorWiresOf obs).length)
    (reduceKron (tensorBlocks obs)).map (fun m => (warned, m))

/-! ## C2: `Tensor.sparse_matrix` (operation.py:2076-2137) -/

/-- `Tensor.sparse_matrix` (operation.py:2076-2137): resolves the target wire
order (defaulting to `self.wires`), starts from one `eye(2)` factor per target
wire, then for each constituent: a constituent with more than one wire raises
the consecutive-wires `ValueError` (the `len(o.wires) > 1` guard,
operation.py:2127-2132, regardless of contiguity); otherwise the constituent's
matrix is assigned to the slot of its wire (`wires.index(o.wires)`,
operation.py:2134 — modelled from the spec for the `Wires.index` lookup, which
fails when the label is absent); finally all factors are Kronecker-multiplied
in wire order (operation.py:2137). -/
def sparsePlaceLoop (ws : List ℤ) (acc : List GMat) :
    List PObs → Except String (List GMat)
  | [] => .ok acc
  | o :: rest =>
    if 1 < o.wires.length then
      .error "Can only compute sparse representation for tensors whose operations act on consecutive wires"
    else
      match o.wires with
      | [w] =>
        if w ∈ ws then sparsePlaceLoop ws (acc.set (ws.indexOf w) o.matrix) rest
        else .error "wire label not found in the wire order"
      | _ => .error "wire label not found in the wire order"

/-- The full `Tensor.sparse_matrix` (see `sparsePlaceLoop` for the per-wire
placement loop): resolve the target wire order, place the factors, reduce by
the Kronecker product. -/
def tensorSparseMatrix (obs : List PObs) (wires : Option (List ℤ)) :
    Except String GMat :=
  let ws := match wires with | none => tensorWiresOf obs | some l => l
  (sparsePlaceLoop ws (List.replicate ws.length eye2) obs).bind reduceKron

/-! ## C3: `CV.heisenberg_expand` (operation.py:2193-2260) -/

/-- A first- or second-order Heisenberg-basis array (`U.ndim` 1 or 2; the
`U.ndim > 2` guard of operation.py:2210 is unrepresentable here). -/
inductive HeisArray
  | vec (v : List ℤ)
  | mat (m : List (List ℤ))
  deriving DecidableEq, Repr

/-- `len(U)` — the leading dimension. -/
def HeisArray.len : HeisArray → ℕ
  | .vec v => v.length
  | .mat m => m.length

/-- Entry update of a nested-list matrix. -/
def setEntry (m : List (List ℤ)) (i j : ℕ) (v : ℤ) : List (List ℤ) :=
  m.set i ((m.getD i []).set j v)

/-- Entry read of a nested-list matrix. -/
def getEntry (m : List (List ℤ)) (i j : ℕ) : ℤ := (m.getD i []).getD j 0

/-- `np.zeros(dim)`. -/
def zerosV (n : ℕ) : List ℤ := List.replicate n 0

/-- `np.zeros((dim, dim))`. -/
def zerosM (n : ℕ) : List (List ℤ) := List.replicate n (List.replicate n 0)

/-- `np.eye(dim)`. -/
def eyeM (n : ℕ) : List (List ℤ) :=
  (List.range n).map (fun i => (List.range n).map (fun j => if j = i then 1 else 0))

/-- Modelled from the spec: `Wires.contains_wires` (wires.py, not in src/) —
containment check of one label set in another (spec section 2). -/
def containsWires (wireOrder wires : List ℤ) : Bool :=
  wires.all (fun w => wireOrder.contains w)

/-- `CV.heisenberg_expand` (operation.py:2193-2260).  The guards run in source
order: the size check (operation.py:2213), then the short-circuit returning
`U` itself when `wire_order` is empty or has exactly as many wires as the
operator (operation.py:2216-2218), and only then the containment check
(operation.py:2220).  The expansion scatters the identity coefficient and the
per-wire (position, momentum) slots into the global basis; for a second-order
array the start matrix is zero for observables and identity for gates
(operation.py:2241-2245).  `Wires.indices` (operation.py:2226) is modelled
from the spec as the list of label positions. -/
def heisenbergExpand (opWires : List ℤ) (isObservable : Bool)
    (U : HeisArray) (wireOrder : List ℤ) : Except String HeisArray :=
  if U.len ≠ 1 + 2 * opWires.length then
    Except.error "Heisenberg matrix is the wrong size"
  else if wireOrder.length = 0 ∨ opWires.length = wireOrder.length then
    Except.ok U
  else if ¬ containsWires wireOrder opWires then
    Except.error "Some observable wires do not exist on this device"
  else
    let wireIndices := opWires.map (fun w => wireOrder.indexOf w)
    let dim := 1 + 2 * wireOrder.length
    match U with
    | .vec u =>
      let W0 := (zerosV dim).set 0 (u.getD 0 0)
      let W := wireIndices.enum.foldl (fun acc kw =>
        ((acc.set (2 * kw.2 + 1) (u.getD (2 * kw.1 + 1) 0)).set
          (2 * kw.2 + 2) (u.getD (2 * kw.1 + 2) 0))) W0
      Except.ok (.vec W)
    | .mat u =>
      let W0 := if isObservable then zerosM dim else eyeM dim
      let W1 := setEntry W0 0 0 (getEntry u 0 0)
      let W := wireIndices.enum.foldl (fun acc kw1 =>
        let k1 := kw1.1
        let w1 := kw1.2
        let acc := setEntry acc (2 * w1 + 1) 0 (getEntry u (2 * k1 + 1) 0)
        let acc := setEntry acc (2 * w1 + 2) 0 (getEntry u (2 * k1 + 2) 0)
        let acc := setEntry acc 0 (2 * w1 + 1) (getEntry u 0 (2 * k1 + 1))
        let acc := setEntry acc 0 (2 * w1 + 2) (getEntry u 0 (2 * k1 + 2))
        wireIndices.enum.foldl (fun acc2 kw2 =>
          let k2 := kw2.1
          let w2 := kw2.2
          let acc2 := setEntry acc2 (2 * w1 + 1) (2 * w2 + 1)
            (getEntry u (2 * k1 + 1) (2 * k2 + 1))
          let acc2 := setEntry acc2 (2 * w1 + 1) (2 * w2 + 2)
            (getEntry u (2 * k1 + 1) (2 * k2 + 2))
          let acc2 := setEntry acc2 (2 * w1 + 2) (2 * w2 + 1)
            (getEntry u (2 * k1 + 2) (2 * k2 + 1))
          setEntry acc2 (2 * w1 + 2) (2 * w2 + 2)
            (getEntry u (2 * k1 + 2) (2 * k2 + 2))) acc) W1
      Except.ok (.mat W)

/-! ## Theorems for claims C1, C6, C7, C8, C9, C10 -/

/-- C6: for every Operation with a defined `compute_matrix` (outside a
recording context), starting from the freshly constructed state
(`inverse = False`), a single `inv()` call makes `matrix()` return the
conjugate transpose of the canonical matrix, and calling `inv()` twice
returns the `inverse` flag to its original value and `matrix()` to its
original value. -/
theorem inv_toggle_matrix (s : OperationState) (m : GMat)
    (hm : s.computeMatrix = some m) (h0 : s.inverse = false) :
    s.inv.matrix = .ok (conjTM m) ∧
    s.inv.inv.inverse = s.inverse ∧
    s.inv.inv.matrix = s.matrix := by
  refine ⟨?_, ?_, ?_⟩ <;>
    simp [OperationState.inv, OperationState.matrix, hm, h0]

theorem inv_toggle_matrix_witness :
    (OperationState.inv ⟨some [[⟨0, 1⟩]], false⟩).matrix = .ok (conjTM [[⟨0, 1⟩]]) ∧
    (OperationState.inv (OperationState.inv ⟨some [[⟨0, 1⟩]], false⟩)).inverse =
      (⟨some [[⟨0, 1⟩]], false⟩ : OperationState).inverse ∧
    (OperationState.inv (OperationState.inv ⟨some [[⟨0, 1⟩]], false⟩)).matrix =
      (⟨some [[⟨0, 1⟩]], false⟩ : OperationState).matrix :=
  inv_toggle_matrix ⟨some [[⟨0, 1⟩]], false⟩ [[⟨0, 1⟩]] rfl rfl

/-- C7: `eigvals()` returns the result of `compute_eigvals` when that is
defined; when `compute_eigvals` raises the eigenvalues-undefined error it
falls back to the eigenvalues of the dense `matrix()`; and when the matrix is
also undefined it fails with the eigenvalues-undefined error chained from
(caused by) the matrix-undefined error. -/
theorem eigvals_fallback (linalg : GMat → List GInt) (op : OperatorRep) :
    (∀ v, op.computeEigvals = some v → op.eigvalsMethod linalg = .ok v) ∧
    (op.computeEigvals = none → ∀ m, op.computeMatrix = some m →
      op.eigvalsMethod linalg = .ok (linalg m)) ∧
    (op.computeEigvals = none → op.computeMatrix = none →
      op.eigvalsMethod linalg = .error (.eigvalsUndefined (some .matrixUndefined))) := by
  refine ⟨?_, ?_, ?_⟩
  · intro v hv
    simp [OperatorRep.eigvalsMethod, hv]
  · intro he m hm
    simp [OperatorRep.eigvalsMethod, OperatorRep.matrixMethod, he, hm]
  · intro he hm
    simp [OperatorRep.eigvalsMethod, OperatorRep.matrixMethod, he, hm]

theorem eigvals_fallback_witness :
    OperatorRep.eigvalsMethod (fun m => m.flatten) ⟨some [1], some eye2⟩ = .ok [1] ∧
    OperatorRep.eigvalsMethod (fun m => m.flatten) ⟨none, some eye2⟩ =
      .ok (eye2.flatten) ∧
    OperatorRep.eigvalsMethod (fun m => m.flatten) ⟨none, none⟩ =
      .error (.eigvalsUndefined (some .matrixUndefined)) :=
  ⟨(eigvals_fallback (fun m => m.flatten) ⟨some [1], some eye2⟩).1 [1] rfl,
   (eigvals_fallback (fun m => m.flatten) ⟨none, some eye2⟩).2.1 rfl eye2 rfl,
   (eigvals_fallback (fun m => m.flatten) ⟨none, none⟩).2.2 rfl rfl⟩

/-- C1 (code-bug evidence): evaluating the effective `hash` property at two
RX operators on the same wire whose single angle parameters differ by pi
(angles 0 and 3.1415926535897932) yields *equal* values — both `None`, not
integers — because the second, shadowing definition of the property
(operation.py:1236-1250) falls off the end of its body without returning.
The claim (and the property's own docstring, and the shadowed first
definition at operation.py:517-520) require an integer hash and require these
two values to differ. -/
theorem hashProp_returns_none :
    SimpleOp.hashProp ⟨"RX", [0], [(0 : ℚ)]⟩ =
      SimpleOp.hashProp ⟨"RX", [0], [(3.1415926535897932 : ℚ)]⟩ ∧
    SimpleOp.hashProp ⟨"RX", [0], [(0 : ℚ)]⟩ = none :=
  ⟨rfl, rfl⟩

/-- C10: for every Observable constructed without the `wires` keyword, the
last positional argument is interpreted as the wires and the remaining
positional arguments as the parameters (handed on to `Operator.__init__`);
constructing with no positional arguments and no `wires` keyword fails with
the must-specify-wires error, and — the constructor returning `Except` — no
partial object is produced. -/
theorem observable_init_last_positional (numWires : WiresDecl)
    (fixedNumParams : Option ℕ) (params : List Arg) (w : Arg) :
    observableInit numWires fixedNumParams (params ++ [w]) none =
      operatorInit numWires fixedNumParams params (some w) ∧
    observableInit numWires fixedNumParams [] none =
      .error "Must specify the wires that the Observable acts on" := by
  constructor
  · simp [observableInit]
  · rfl

/-- Helper for C8: the construction loop keeps a flat accumulator flat and
never fails when every argument is admissible. -/
theorem tensorInitGo_flat (args : List PyVal) (acc : List PyVal)
    (hacc : acc.all PyVal.isPlainObs = true)
    (hargs : args.all PyVal.flatArg = true) :
    ∃ res, tensorInitGo acc args = .ok res ∧ res.all PyVal.isPlainObs = true := by
  induction args generalizing acc with
  | nil => exact ⟨acc, rfl, hacc⟩
  | cons a rest ih =>
    simp only [List.all_cons, Bool.and_eq_true] at hargs
    obtain ⟨ha, hrest⟩ := hargs
    cases a with
    | obsVal o =>
      refine ih (acc ++ [PyVal.obsVal o]) ?_ hrest
      simp [List.all_append, hacc, PyVal.isPlainObs]
    | tensorVal l =>
      refine ih (acc ++ l) ?_ hrest
      simp only [PyVal.flatArg] at ha
      simp [List.all_append, hacc, ha]
    | nonObservable => simp [PyVal.flatArg] at ha

/-- C8: every `Tensor` satisfies the invariant that its `obs` list contains no
`Tensor`: construction flattens (a `Tensor` argument contributes its own
constituents, a plain observable is appended, anything else fails), so a
`Tensor` built from a `Tensor` and a plain observable has the flat `obs` list
in left-to-right order with the plain observable appended last; and the
invariant is preserved by the tensor-product operations (`@` extending by a
flat tensor's constituents or appending a plain observable, and the reversed
`@` prepending a plain observable). -/
theorem tensor_obs_flat (args t u : List PyVal) (o o' : PObs)
    (hargs : args.all PyVal.flatArg = true)
    (ht : t.all PyVal.isPlainObs = true)
    (hu : u.all PyVal.isPlainObs = true) :
    (∃ res, tensorInitObs args = .ok res ∧ res.all PyVal.isPlainObs = true) ∧
    tensorInitObs [PyVal.tensorVal t, PyVal.obsVal o] =
      .ok (t ++ [PyVal.obsVal o]) ∧
    (∃ r₁, tensorMatmulObs t (PyVal.tensorVal u) = .ok r₁ ∧
      r₁.all PyVal.isPlainObs = true) ∧
    (∃ r₂, tensorMatmulObs t (PyVal.obsVal o') = .ok r₂ ∧
      r₂.all PyVal.isPlainObs = true) ∧
    (∃ r₃, tensorRmatmulObs t (PyVal.obsVal o') = .ok r₃ ∧
      r₃.all PyVal.isPlainObs = true) := by
  refine ⟨tensorInitGo_flat args [] rfl hargs, ?_, ?_, ?_, ?_⟩
  · simp [tensorInitObs, tensorInitGo]
  · exact ⟨t ++ u, rfl, by simp [List.all_append, ht, hu]⟩
  · exact ⟨t ++ [PyVal.obsVal o'], rfl,
      by simp [List.all_append, ht, PyVal.isPlainObs]⟩
  · exact ⟨PyVal.obsVal o' :: t, rfl, by simp [ht, PyVal.isPlainObs]⟩

theorem tensor_obs_flat_witness :
    (∃ res, tensorInitObs [PyVal.tensorVal [PyVal.obsVal (PObs.pauliX 0)],
        PyVal.obsVal (PObs.pauliZ 1)] = .ok res ∧
      res.all PyVal.isPlainObs = true) ∧
    tensorInitObs [PyVal.tensorVal [PyVal.obsVal (PObs.pauliX 0)],
        PyVal.obsVal (PObs.pauliZ 1)] =
      .ok ([PyVal.obsVal (PObs.pauliX 0)] ++ [PyVal.obsVal (PObs.pauliZ 1)]) ∧
    (∃ r₁, tensorMatmulObs [PyVal.obsVal (PObs.pauliX 0)]
        (PyVal.tensorVal [PyVal.obsVal (PObs.pauliY 2)]) = .ok r₁ ∧
      r₁.all PyVal.isPlainObs = true) ∧
    (∃ r₂, tensorMatmulObs [PyVal.obsVal (PObs.pauliX 0)]
        (PyVal.obsVal (PObs.identityObs 3)) = .ok r₂ ∧
      r₂.all PyVal.isPlainObs = true) ∧
    (∃ r₃, tensorRmatmulObs [PyVal.obsVal (PObs.pauliX 0)]
        (PyVal.obsVal (PObs.identityObs 3)) = .ok r₃ ∧
      r₃.all PyVal.isPlainObs = true) :=
  tensor_obs_flat [PyVal.tensorVal [PyVal.obsVal (PObs.pauliX 0)],
      PyVal.obsVal (PObs.pauliZ 1)]
    [PyVal.obsVal (PObs.pauliX 0)] [PyVal.obsVal (PObs.pauliY 2)]
    (PObs.pauliZ 1) (PObs.identityObs 3) (by decide) (by decide) (by decide)

/-- C9: `t @ other` mutates the `Tensor` object `t` in place — appending a
plain observable, or extending by the other tensor's constituents — and
returns the *same object* (the returned id is `t`'s id); `o @ t` for a plain
observable prepends `o` to `t`'s `obs` and returns `t`; in each case every
other field of `t` and every other heap object is unchanged. -/
theorem matmul_in_place (h : THeap) (tid oid : ℕ) (o : PObs) :
    (∃ h₁, tensorMatmulH h tid (.obsVal o) = .ok (h₁, tid) ∧
      (h₁ tid).obs = (h tid).obs ++ [PyVal.obsVal o] ∧
      (h₁ tid).eigvalsCache = (h tid).eigvalsCache ∧
      (h₁ tid).returnType = (h tid).returnType ∧
      (h₁ tid).initArgs = (h tid).initArgs ∧
      ∀ j, j ≠ tid → h₁ j = h j) ∧
    (∃ h₂, tensorMatmulH h tid (.tensorRef oid) = .ok (h₂, tid) ∧
      (h₂ tid).obs = (h tid).obs ++ (h oid).obs ∧
      (h₂ tid).eigvalsCache = (h tid).eigvalsCache ∧
      (h₂ tid).returnType = (h tid).returnType ∧
      (h₂ tid).initArgs = (h tid).initArgs ∧
      ∀ j, j ≠ tid → h₂ j = h j) ∧
    (∃ h₃, observableMatmulTensorH h o tid = .ok (h₃, tid) ∧
      (h₃ tid).obs = PyVal.obsVal o :: (h tid).obs ∧
      (h₃ tid).eigvalsCache = (h tid).eigvalsCache ∧
      (h₃ tid).returnType = (h tid).returnType ∧
      (h₃ tid).initArgs = (h tid).initArgs ∧
      ∀ j, j ≠ tid → h₃ j = h j) := by
  refine ⟨⟨_, rfl, ?_⟩, ⟨_, rfl, ?_⟩, ⟨_, rfl, ?_⟩⟩ <;>
    refine ⟨by simp [heapUpdate], by simp [heapUpdate], by simp [heapUpdate],
      by simp [heapUpdate], fun j hj => by simp [heapUpdate, hj]⟩

/-- A concrete two-object heap for the C9 witness. -/
def exampleHeap : THeap :=
  fun i =>
    if i = 0 then ⟨[PyVal.obsVal (PObs.pauliX 0)], none, none, []⟩
    else ⟨[PyVal.obsVal (PObs.pauliZ 1)], none, some "expval", []⟩

theorem matmul_in_place_witness :
    ∃ h₁, tensorMatmulH exampleHeap 0 (.obsVal (PObs.pauliY 2)) = .ok (h₁, 0) ∧
      (h₁ 0).obs = (exampleHeap 0).obs ++ [PyVal.obsVal (PObs.pauliY 2)] ∧
      h₁ 5 = exampleHeap 5 := by
  obtain ⟨h₁, e₁, eobs, _, _, _, hframe⟩ :=
    (matmul_in_place exampleHeap 0 7 (PObs.pauliY 2)).1
  exact ⟨h₁, e₁, eobs, hframe 5 (by decide)⟩

/-! ## C4: `expand_matrix` (operation.py:114-204)

The numpy tensor primitives (`reshape`, `eye`, `tensordot`, `moveaxis`) are
external collaborators (spec section 6); they are modelled on tensors whose
legs all have dimension 2, represented as functions from bit lists to
entries, with numpy's row-major index order (first leg most significant). -/

/-- Row-major value of a bit list (the joint index a numpy `reshape` of a
single 2^n axis into n axes of 2 assigns). -/
def bitsToNat : List Bool → ℕ :=
  List.foldl (fun a b => 2 * a + (if b then 1 else 0)) 0

/-- The length-n row-major bit list of a value. -/
def natToBits : ℕ → ℕ → List Bool
  | 0, _ => []
  | n + 1, v => natToBits n (v / 2) ++ [decide (v % 2 = 1)]

/-- All bit lists of length n, as numpy enumerates a joint index range. -/
def allBits (n : ℕ) : List (List Bool) := (List.range (2 ^ n)).map (natToBits n)

/-- A tensor all of whose legs have dimension 2, of unspecified rank: entries
indexed by bit lists. -/
def TensorK := List Bool → ℤ

/-- `reshape(base_matrix, [2]*n*2)` (operation.py:192): the rank-2n tensor of
a 2^n x 2^n matrix, rows first. -/
def tensorOfMat (n : ℕ) (M : ℕ → ℕ → ℤ) : TensorK :=
  fun idx => M (bitsToNat (idx.take n)) (bitsToNat (idx.drop n))

/-- `reshape(eye(2 ** len(wire_order)), [2] * len(wire_order) * 2)`
(operation.py:185-187). -/
def eyeTensor (N : ℕ) : TensorK :=
  fun idx => if bitsToNat (idx.take N) = bitsToNat (idx.drop N) then 1 else 0

/-- How many axis positions strictly before `p` are not listed in `axes`. -/
def countNotMemBefore (axes : List ℕ) (p : ℕ) : ℕ :=
  ((List.range p).filter (fun q => decide (q ∉ axes))).length

/-- The full index of one side of a `tensordot` contraction: the axes listed
in `axes` take the summation bits (in the order the axes are listed), the
remaining axes take the free output bits in axis order. -/
def buildIdx (k : ℕ) (axes : List ℕ) (contr free : List Bool) : List Bool :=
  (List.range k).map (fun p =>
    if p ∈ axes then contr.getD (axes.indexOf p) false
    else free.getD (countNotMemBefore axes p) false)

/-- `numpy.tensordot(A, B, (axesA, axesB))` for A of rank ka and B of rank
kb: the output legs are A's uncontracted legs (in order) followed by B's
uncontracted legs (in order), and each entry sums, over the joint range of
the contracted legs, the products of the paired entries. -/
def tensordot (A B : TensorK) (ka kb : ℕ) (axesA axesB : List ℕ) : TensorK :=
  fun out =>
    ((allBits axesA.length).map (fun s =>
      A (buildIdx ka axesA s (out.take (ka - axesA.length))) *
      B (buildIdx kb axesB s (out.drop (ka - axesA.length))))).sum

/-- The output position of input axis `a` under `numpy.moveaxis(-, src, dest)`:
axes listed in `src` go to the paired `dest` position, the remaining axes
keep their relative order in the remaining positions. -/
def movedPos (k : ℕ) (src dest : List ℕ) (a : ℕ) : ℕ :=
  if a ∈ src then dest.getD (src.indexOf a) 0
  else ((List.range k).filter (fun q => decide (q ∉ dest))).getD
    (countNotMemBefore src a) 0

/-- `numpy.moveaxis` on a rank-k tensor. -/
def moveaxis (T : TensorK) (k : ℕ) (src dest : List ℕ) : TensorK :=
  fun out => T ((List.range k).map (fun a => out.getD (movedPos k src dest a) false))

/-- `reshape(mat, (2 ** len(wire_order), 2 ** len(wire_order)))`
(operation.py:202). -/
def matOfTensor (N : ℕ) (T : TensorK) : ℕ → ℕ → ℤ :=
  fun r c => T (natToBits N r ++ natToBits N c)

/-- Modelled from the spec: `Wires.indices` (wires.py, not in src/) — the
positions of the given labels inside the wire order (spec section 2,
"index lookup"). -/
def wireIndicesIn (wireOrder wires : List ℤ) : List ℕ :=
  wires.map (fun x => wireOrder.indexOf x)

/-- `expand_matrix` (operation.py:114-204), with matrices as entry functions:
reshape the base matrix into a rank-2n tensor (operation.py:192); contract
its column legs (`axes = (list(range(n, 2*n)), op_wire_pos)`,
operation.py:188) against the reshaped identity over the full wire order
(operation.py:193-195); `moveaxis` the result so the operator's legs sit at
its wire positions and the identity-padded legs fill the remaining positions
(`perm = op_wire_pos + unused_idxs`, operation.py:197-200); reshape back
(operation.py:202). -/
def expand_matrix (M : ℕ → ℕ → ℤ) (wires wireOrder : List ℤ) : ℕ → ℕ → ℤ :=
  matOfTensor wireOrder.length
    (moveaxis
      (tensordot (tensorOfMat wires.length M) (eyeTensor wireOrder.length)
        (2 * wires.length) (2 * wireOrder.length)
        (List.range' wires.length wires.length) (wireIndicesIn wireOrder wires))
      (2 * wireOrder.length) (List.range wireOrder.length)
      (wireIndicesIn wireOrder wires ++
        (List.range wireOrder.length).filter
          (fun idx => decide (idx ∉ wireIndicesIn wireOrder wires))))

/-! ### Bit-index arithmetic for the C4 proof -/

theorem natToBits_length (n v : ℕ) : (natToBits n v).length = n := by
  induction n generalizing v with
  | zero => rfl
  | succ n ih => simp [natToBits, ih]

theorem bitsToNat_concat (l : List Bool) (b : Bool) :
    bitsToNat (l ++ [b]) = 2 * bitsToNat l + b.toNat := by
  cases b <;> simp [bitsToNat, List.foldl_append]

theorem bitsToNat_natToBits (n v : ℕ) (h : v < 2 ^ n) :
    bitsToNat (natToBits n v) = v := by
  induction n generalizing v with
  | zero =>
    simp only [pow_zero, Nat.lt_one_iff] at h
    simp [natToBits, bitsToNat, h]
  | succ n ih =>
    have h2 : v / 2 < 2 ^ n := by
      rw [pow_succ] at h
      omega
    rw [natToBits, bitsToNat_concat, ih _ h2]
    rcases Nat.mod_two_eq_zero_or_one v with h1 | h1 <;>
      simp [h1, Bool.toNat] <;> omega

theorem natToBits_bitsToNat (l : List Bool) :
    natToBits l.length (bitsToNat l) = l := by
  induction l using List.reverseRecOn with
  | nil => rfl
  | append_singleton xs b ih =>
    have hlen : (xs ++ [b]).length = xs.length + 1 := by simp
    rw [hlen, bitsToNat_concat, natToBits]
    cases b
    · rw [show (2 * bitsToNat xs + Bool.toNat false) / 2 = bitsToNat xs from by
        simp [Bool.toNat]]
      rw [ih]
      congr 1
      simp [Bool.toNat, Nat.mul_add_mod]
    · rw [show (2 * bitsToNat xs + Bool.toNat true) / 2 = bitsToNat xs from by
        simp [Bool.toNat]; omega]
      rw [ih]
      congr 1
      simp [Bool.toNat, Nat.mul_add_mod]

theorem bitsToNat_lt (l : List Bool) : bitsToNat l < 2 ^ l.length := by
  induction l using List.reverseRecOn with
  | nil => simp [bitsToNat]
  | append_singleton xs b ih =>
    rw [bitsToNat_concat]
    simp only [List.length_append, List.length_singleton, pow_succ]
    cases b <;> simp <;> omega

theorem mem_allBits (l : List Bool) (n : ℕ) (h : l.length = n) :
    l ∈ allBits n := by
  subst h
  refine List.mem_map.mpr ⟨bitsToNat l, ?_, natToBits_bitsToNat l⟩
  simpa [List.mem_range] using bitsToNat_lt l

theorem length_of_mem_allBits (l : List Bool) (n : ℕ) (h : l ∈ allBits n) :
    l.length = n := by
  obtain ⟨v, _, rfl⟩ := List.mem_map.mp h
  exact natToBits_length n v

theorem allBits_nodup (n : ℕ) : (allBits n).Nodup := by
  refine List.Nodup.map_on ?_ (List.nodup_range (2 ^ n))
  intro x hx y hy hxy
  have hcast := congrArg bitsToNat hxy
  rwa [bitsToNat_natToBits n x (List.mem_range.mp hx),
    bitsToNat_natToBits n y (List.mem_range.mp hy)] at hcast

theorem sum_map_mul_ite (l : List (List Bool)) (hl : l.Nodup) (a : List Bool)
    (ha : a ∈ l) (f : List Bool → ℤ) :
    (l.map (fun s => f s * (if s = a then 1 else 0))).sum = f a := by
  induction l with
  | nil => cases ha
  | cons x xs ih =>
    rcases List.mem_cons.mp ha with rfl | hmem
    · have hnot : a ∉ xs := (List.nodup_cons.mp hl).1
      have hz : (xs.map (fun s => f s * (if s = a then 1 else 0))).sum = 0 := by
        apply List.sum_eq_zero
        intro z hz
        obtain ⟨s, hs, rfl⟩ := List.mem_map.mp hz
        rw [if_neg, mul_zero]
        rintro rfl
        exact hnot hs
      rw [List.map_cons, List.sum_cons, if_pos rfl, mul_one, hz, add_zero]
    · have hxa : x ≠ a := by
        rintro rfl
        exact (List.nodup_cons.mp hl).1 hmem
      simp only [List.map_cons, List.sum_cons, if_neg hxa, mul_zero, zero_add]
      exact ih (List.nodup_cons.mp hl).2 hmem

theorem indexOf_range' (s len p : ℕ) (h1 : s ≤ p) (h2 : p < s + len) :
    (List.range' s len).indexOf p = p - s := by
  induction len generalizing s with
  | zero => omega
  | succ len ih =>
    rw [List.range'_succ]
    by_cases hp : p = s
    · subst hp
      simp [List.indexOf_cons_self]
    · rw [List.indexOf_cons_ne _ (by omega : s ≠ p), ih (s + 1) (by omega) (by omega)]
      omega

theorem indexOf_range (n p : ℕ) (h : p < n) : (List.range n).indexOf p = p := by
  rw [List.range_eq_range']
  simpa using indexOf_range' 0 n p (Nat.zero_le p) (by omega)

theorem countNotMemBefore_range'_lt (n p : ℕ) (h : p ≤ n) :
    countNotMemBefore (List.range' n n) p = p := by
  unfold countNotMemBefore
  rw [List.filter_eq_self.mpr, List.length_range]
  intro q hq
  have hql : q < p := List.mem_range.mp hq
  simp only [decide_eq_true_eq, List.mem_range'_1]
  omega

theorem countNotMemBefore_range (n p : ℕ) :
    countNotMemBefore (List.range n) p = p - n := by
  unfold countNotMemBefore
  induction p with
  | zero => simp
  | succ p ih =>
    rw [List.range_succ, List.filter_append, List.length_append, ih]
    by_cases hp : p < n
    · have hone : (List.filter (fun q => decide (q ∉ List.range n)) [p]).length = 0 := by
        simp [List.mem_range, hp]
      rw [hone]
      omega
    · have hone : (List.filter (fun q => decide (q ∉ List.range n)) [p]).length = 1 := by
        simp [List.mem_range, Nat.le_of_not_lt hp]
      rw [hone]
      omega

theorem buildIdx_suffix_axes (n : ℕ) (s f : List Bool)
    (hs : s.length = n) (hf : f.length = n) :
    buildIdx (2 * n) (List.range' n n) s f = f ++ s := by
  apply List.ext_getElem
  · simp [buildIdx, hs, hf]
    omega
  · intro i h1 h2
    have hi : i < 2 * n := by simpa [buildIdx] using h1
    simp only [buildIdx, List.getElem_map, List.getElem_range]
    by_cases hiin : i ∈ List.range' n n
    · have hrange := List.mem_range'_1.mp hiin
      rw [if_pos hiin, indexOf_range' n n i hrange.1 (by omega)]
      rw [List.getD_eq_getElem s false (by omega : i - n < s.length)]
      rw [List.getElem_append_right (by omega : f.length ≤ i)]
      congr 1
      omega
    · have hlt : i < n := by
        rcases Nat.lt_or_ge i n with hl | hl
        · exact hl
        · exact absurd (List.mem_range'_1.mpr ⟨hl, by omega⟩) hiin
      rw [if_neg hiin, countNotMemBefore_range'_lt n i (by omega)]
      rw [List.getD_eq_getElem f false (by omega : i < f.length)]
      exact (List.getElem_append_left (by omega)).symm

theorem buildIdx_prefix_axes (n : ℕ) (s f : List Bool)
    (hs : s.length = n) (hf : f.length = n) :
    buildIdx (2 * n) (List.range n) s f = s ++ f := by
  apply List.ext_getElem
  · simp [buildIdx, hs, hf]
    omega
  · intro i h1 h2
    have hi : i < 2 * n := by simpa [buildIdx] using h1
    simp only [buildIdx, List.getElem_map, List.getElem_range]
    by_cases hiin : i ∈ List.range n
    · have hlt := List.mem_range.mp hiin
      rw [if_pos hiin, indexOf_range n i hlt]
      rw [List.getD_eq_getElem s false (by omega : i < s.length)]
      exact (List.getElem_append_left (by omega)).symm
    · have hge : n ≤ i := by simpa [List.mem_range, Nat.not_lt] using hiin
      rw [if_neg hiin, countNotMemBefore_range n i]
      rw [List.getD_eq_getElem f false (by omega : i - n < f.length)]
      rw [List.getElem_append_right (by omega : s.length ≤ i)]
      congr 1
      omega

theorem movedPos_id (n a : ℕ) (ha : a < 2 * n) :
    movedPos (2 * n) (List.range n) (List.range n) a = a := by
  unfold movedPos
  by_cases hmem : a ∈ List.range n
  · have hlt := List.mem_range.mp hmem
    rw [if_pos hmem, indexOf_range n a hlt,
      List.getD_eq_getElem _ 0 (by simpa using hlt), List.getElem_range]
  · have hge : n ≤ a := by simpa [List.mem_range, Nat.not_lt] using hmem
    rw [if_neg hmem, countNotMemBefore_range n a]
    have hfilter : (List.range (2 * n)).filter
        (fun q => decide (q ∉ List.range n)) =
        (List.range n).map (fun x => n + x) := by
      rw [two_mul, List.range_add, List.filter_append]
      rw [List.filter_eq_nil_iff.mpr (fun b hb => by simp [List.mem_range.mp hb]),
        List.nil_append]
      apply List.filter_eq_self.mpr
      intro b hb
      obtain ⟨x, _, rfl⟩ := List.mem_map.mp hb
      simp [List.mem_range]
    rw [hfilter, List.getD_eq_getElem _ 0 (by simp; omega), List.getElem_map,
      List.getElem_range]
    omega

theorem moveaxis_index_id (n : ℕ) (out : List Bool) (hlen : out.length = 2 * n) :
    (List.range (2 * n)).map
      (fun a => out.getD (movedPos (2 * n) (List.range n) (List.range n) a) false) =
      out := by
  apply List.ext_getElem
  · simp [hlen]
  · intro i h1 h2
    simp only [List.getElem_map, List.getElem_range]
    rw [movedPos_id n i (by simpa using h1)]
    exact List.getD_eq_getElem out false (by omega)

theorem wireIndicesIn_self (w : List ℤ) (hnd : w.Nodup) :
    wireIndicesIn w w = List.range w.length := by
  apply List.ext_getElem
  · simp [wireIndicesIn]
  · intro i h1 h2
    simp only [wireIndicesIn, List.getElem_map, List.getElem_range]
    exact List.indexOf_getElem hnd i (by simpa [wireIndicesIn] using h1)

theorem unusedIdxs_self (n : ℕ) :
    (List.range n).filter (fun idx => decide (idx ∉ List.range n)) = [] := by
  apply List.filter_eq_nil_iff.mpr
  intro a ha
  simp [ha]

theorem take_append_of_length (l₁ l₂ : List Bool) (n : ℕ) (h : l₁.length = n) :
    (l₁ ++ l₂).take n = l₁ := by
  subst h
  exact List.take_left l₁ l₂

theorem drop_append_of_length (l₁ l₂ : List Bool) (n : ℕ) (h : l₁.length = n) :
    (l₁ ++ l₂).drop n = l₂ := by
  subst h
  exact List.drop_left l₁ l₂

/-- C4: for every base matrix of dimension 2^(number of wires) and every
duplicate-free wire list `w`, `expand_matrix(M, wires=w, wire_order=w)` (same
labels, same order) returns the base matrix unchanged — entrywise over the
valid index range, with no fast path: the identity contraction and the
trivial axis permutation reproduce every entry exactly. -/
theorem expand_matrix_same_wires (M : ℕ → ℕ → ℤ) (w : List ℤ) (hnd : w.Nodup)
    (r c : ℕ) (hr : r < 2 ^ w.length) (hc : c < 2 ^ w.length) :
    expand_matrix M w w r c = M r c := by
  set n := w.length with hn
  have hout : (natToBits n r ++ natToBits n c).length = 2 * n := by
    simp [natToBits_length]
    omega
  have htake : (natToBits n r ++ natToBits n c).take (2 * n - n) = natToBits n r := by
    rw [show 2 * n - n = n from by omega]
    exact take_append_of_length _ _ n (natToBits_length n r)
  have hdrop : (natToBits n r ++ natToBits n c).drop (2 * n - n) = natToBits n c := by
    rw [show 2 * n - n = n from by omega]
    exact drop_append_of_length _ _ n (natToBits_length n r)
  have hcongr : ∀ s ∈ allBits n,
      tensorOfMat n M (buildIdx (2 * n) (List.range' n n) s (natToBits n r)) *
        eyeTensor n (buildIdx (2 * n) (List.range n) s (natToBits n c)) =
      M r (bitsToNat s) * (if s = natToBits n c then 1 else 0) := by
    intro s hs
    have hslen : s.length = n := length_of_mem_allBits s n hs
    rw [buildIdx_suffix_axes n s (natToBits n r) hslen (natToBits_length n r),
        buildIdx_prefix_axes n s (natToBits n c) hslen (natToBits_length n c)]
    unfold tensorOfMat eyeTensor
    rw [take_append_of_length _ _ n (natToBits_length n r),
        drop_append_of_length _ _ n (natToBits_length n r),
        take_append_of_length _ _ n hslen,
        drop_append_of_length _ _ n hslen,
        bitsToNat_natToBits n r hr]
    have hiff : (bitsToNat s = bitsToNat (natToBits n c)) ↔ (s = natToBits n c) := by
      rw [bitsToNat_natToBits n c hc]
      constructor
      · intro h
        rw [← h, ← hslen, natToBits_bitsToNat]
      · rintro rfl
        exact bitsToNat_natToBits n c hc
    rw [if_congr hiff rfl rfl]
  calc expand_matrix M w w r c
      = ((allBits n).map (fun s =>
          tensorOfMat n M (buildIdx (2 * n) (List.range' n n) s (natToBits n r)) *
          eyeTensor n (buildIdx (2 * n) (List.range n) s (natToBits n c)))).sum := by
        unfold expand_matrix matOfTensor moveaxis tensordot
        rw [wireIndicesIn_self w hnd]
        rw [← hn, unusedIdxs_self n, List.append_nil, moveaxis_index_id n _ hout]
        simp only [List.length_range']
        rw [htake, hdrop]
    _ = ((allBits n).map (fun s =>
          M r (bitsToNat s) * (if s = natToBits n c then 1 else 0))).sum :=
        congrArg List.sum (List.map_congr_left hcongr)
    _ = M r c := by
        rw [sum_map_mul_ite (allBits n) (allBits_nodup n) (natToBits n c)
          (mem_allBits _ n (natToBits_length n c)) (fun s => M r (bitsToNat s)),
          bitsToNat_natToBits n c hc]

theorem expand_matrix_same_wires_witness :
    expand_matrix (fun r c => (4 * r + c : ℤ)) [0, 1] [0, 1] 2 3 =
      (fun r c => (4 * r + c : ℤ)) 2 3 :=
  expand_matrix_same_wires (fun r c => (4 * r + c : ℤ)) [0, 1] (by decide)
    2 3 (by decide) (by decide)

/-! ### Theorems for C5 -/

theorem groupRuns_ne_nil (a : PObs) (rest : List PObs) :
    groupRuns (a :: rest) ≠ [] := by
  unfold groupRuns
  rcases h : groupRuns rest with _ | ⟨g, gs⟩
  · simp
  · rcases g with _ | ⟨b, gtl⟩
    · simp
    · by_cases hw : a.wires = b.wires <;> simp [hw]

/-- C5: for every Tensor whose combined constituent matrix size does not
equal 2^(number of distinct wires), `matrix()` does not raise an exception:
it emits a warning (the Boolean flag of the result) and still returns the
Kronecker product of the per-wire-group blocks. -/
theorem tensor_matrix_warns (obs : List PObs)
    (hmis : tensorMatSize obs ≠ 2 ^ (tensorWiresOf obs).length) :
    ∃ m, reduceKron (tensorBlocks obs) = .ok m ∧
      tensorMatrixMethod obs none = .ok (true, m) := by
  have hne : obs ≠ [] := by
    rintro rfl
    exact hmis rfl
  obtain ⟨a, rest, rfl⟩ := List.exists_cons_of_ne_nil hne
  rcases hb : tensorBlocks (a :: rest) with _ | ⟨u, us⟩
  · exact absurd (List.map_eq_nil_iff.mp hb) (groupRuns_ne_nil a rest)
  · refine ⟨us.foldl kronM u, rfl, ?_⟩
    simp only [tensorMatrixMethod]
    rw [hb]
    simp [reduceKron, hmis, Except.map]

theorem tensor_matrix_warns_witness :
    ∃ m, reduceKron (tensorBlocks [PObs.pauliZ 0, PObs.pauliX 1, PObs.pauliZ 0]) =
        .ok m ∧
      tensorMatrixMethod [PObs.pauliZ 0, PObs.pauliX 1, PObs.pauliZ 0] none =
        .ok (true, m) :=
  tensor_matrix_warns [PObs.pauliZ 0, PObs.pauliX 1, PObs.pauliZ 0] (by decide)

/-! ### Theorems for C3 -/

theorem foldl_invariant {α β : Type} (P : α → Prop) (f : α → β → α)
    (hf : ∀ a b, P a → P (f a b)) :
    ∀ (l : List β) (init : α), P init → P (l.foldl f init) := by
  intro l
  induction l with
  | nil => exact fun init h => h
  | cons b rest ih => exact fun init h => ih (f init b) (hf init b h)

/-- C3 (counterexample): a CV operator on wires `[0]` with a correctly sized
first-order Heisenberg array and `wire_order = [5]`, which does *not* contain
the operator's wires: the claim requires an error, but the code returns `U`
unchanged, because the equal-wire-count short circuit (operation.py:2216-2218)
runs before the containment check (operation.py:2220). -/
theorem heisenberg_expand_counterexample :
    containsWires [5] [0] = false ∧
    heisenbergExpand [0] false (.vec [1, 2, 3]) [5] = .ok (.vec [1, 2, 3]) :=
  ⟨rfl, rfl⟩

/-- C3 (amended): `heisenberg_expand` raises the dimension-mismatch error
whenever the size of `U` differs from 1 + 2*(own wire count); when
`wire_order` is empty or has exactly as many wires as the operator it returns
`U` unchanged *without any containment check*; otherwise it raises the
containment error exactly when the operator's wires are not contained in
`wire_order`, and in the remaining case returns the expanded array of
dimension 1 + 2*|wire_order|. -/
theorem heisenberg_expand_cases (opWires : List ℤ) (isObs : Bool)
    (U : HeisArray) (wireOrder : List ℤ) :
    (U.len ≠ 1 + 2 * opWires.length →
      heisenbergExpand opWires isObs U wireOrder =
        .error "Heisenberg matrix is the wrong size") ∧
    (U.len = 1 + 2 * opWires.length →
      (wireOrder.length = 0 ∨ opWires.length = wireOrder.length) →
      heisenbergExpand opWires isObs U wireOrder = .ok U) ∧
    (U.len = 1 + 2 * opWires.length → wireOrder.length ≠ 0 →
      opWires.length ≠ wireOrder.length →
      containsWires wireOrder opWires = false →
      heisenbergExpand opWires isObs U wireOrder =
        .error "Some observable wires do not exist on this device") ∧
    (U.len = 1 + 2 * opWires.length → wireOrder.length ≠ 0 →
      opWires.length ≠ wireOrder.length →
      containsWires wireOrder opWires = true →
      ∃ W, heisenbergExpand opWires isObs U wireOrder = .ok W ∧
        W.len = 1 + 2 * wireOrder.length) := by
  refine ⟨?_, ?_, ?_, ?_⟩
  · intro hsz
    unfold heisenbergExpand
    rw [if_pos hsz]
  · intro hsz hshort
    unfold heisenbergExpand
    rw [if_neg (not_not_intro hsz), if_pos hshort]
  · intro hsz hne hlen hcw
    unfold heisenbergExpand
    rw [if_neg (not_not_intro hsz),
      if_neg (by push_neg; exact ⟨hne, hlen⟩),
      if_pos (by simp [hcw])]
  · intro hsz hne hlen hcw
    unfold heisenbergExpand
    rw [if_neg (not_not_intro hsz),
      if_neg (by push_neg; exact ⟨hne, hlen⟩),
      if_neg (by simp [hcw])]
    cases U with
    | vec u =>
      refine ⟨_, rfl, ?_⟩
      simp only [HeisArray.len]
      refine foldl_invariant
        (fun l : List ℤ => l.length = 1 + 2 * wireOrder.length) _
        (fun acc b hacc => by simp [List.length_set, hacc]) _ _ ?_
      simp [zerosV]
    | mat u =>
      refine ⟨_, rfl, ?_⟩
      simp only [HeisArray.len]
      refine foldl_invariant
        (fun l : List (List ℤ) => l.length = 1 + 2 * wireOrder.length) _
        (fun acc b hacc => ?_) _ _ ?_
      · refine foldl_invariant
          (fun l : List (List ℤ) => l.length = 1 + 2 * wireOrder.length) _
          (fun acc2 b2 hacc2 => by simp [setEntry, List.length_set, hacc2]) _ _ ?_
        simp [setEntry, List.length_set, hacc]
      · by_cases hio : isObs = true <;>
          simp [setEntry, List.length_set, hio, zerosM, eyeM]

theorem heisenberg_expand_cases_witness :
    heisenbergExpand [0] false (.vec [1, 2, 3]) [0, 1] =
      .ok (.vec [1, 2, 3, 0, 0]) ∧
    (∃ W, heisenbergExpand [0] false (.vec [1, 2, 3]) [0, 1] = .ok W ∧
      W.len = 1 + 2 * ([0, 1] : List ℤ).length) ∧
    heisenbergExpand [0] false (.vec [1, 2]) [0, 1] =
      .error "Heisenberg matrix is the wrong size" ∧
    heisenbergExpand [0] false (.vec [1, 2, 3]) [5, 6] =
      .error "Some observable wires do not exist on this device" :=
  ⟨rfl,
   (heisenberg_expand_cases [0] false (.vec [1, 2, 3]) [0, 1]).2.2.2 rfl
     (by decide) (by decide) (by decide),
   (heisenberg_expand_cases [0] false (.vec [1, 2]) [0, 1]).1 (by decide),
   (heisenberg_expand_cases [0] false (.vec [1, 2, 3]) [5, 6]).2.2.1 rfl
     (by decide) (by decide) (by decide)⟩

/-! ### Theorems for C2 -/

/-- Decidable form of "acts on exactly one wire that the target order
covers", the condition under which the placement loop accepts a constituent. -/
def singleCoveredBy (ws : List ℤ) (o : PObs) : Bool :=
  match o.wires with
  | [w] => ws.contains w
  | _ => false

/-- The matrix of the last observable of a list, or a default: the slot value
after a sequence of overwriting assignments. -/
def lastMatrixOr (l : List PObs) (dflt : GMat) : GMat :=
  match l.getLast? with
  | some o => o.matrix
  | none => dflt

/-- The factor list the placement loop produces from the all-single-wire case:
per target position, the matrix of the *last* constituent on that wire
(later assignments overwrite earlier ones), else the `eye(2)` default. -/
def sparseFactors (obs : List PObs) (ws : List ℤ) : List GMat :=
  ws.map (fun t =>
    lastMatrixOr (obs.filter (fun o => decide (o.wires = [t]))) eye2)

/-- Refinement-side definition following the spec's words only (C2 speaks of
constituents "contiguous with respect to the target wire ordering"): the
block's labels occupy consecutive positions of the target, in order. -/
def specContiguousIn (block target : List ℤ) : Bool :=
  block.all (fun w => target.contains w) &&
    decide (block.map (fun w => target.indexOf w) =
      List.range' ((block.map (fun w => target.indexOf w)).headD 0) block.length)

theorem getD_set_self {α : Type} (l : List α) (i : ℕ) (v d : α)
    (h : i < l.length) : (l.set i v).getD i d = v := by
  rw [List.getD_eq_getElem _ _ (by simpa using h)]
  exact List.getElem_set_self _

theorem getD_set_ne {α : Type} (l : List α) (i j : ℕ) (v d : α) (h : j ≠ i) :
    (l.set j v).getD i d = l.getD i d := by
  simp [List.getD_eq_getElem?_getD, List.getElem?_set_ne h]

theorem indexOf_getD_self (ws : List ℤ) (hnd : ws.Nodup) (i : ℕ)
    (hi : i < ws.length) : ws.indexOf (ws.getD i 0) = i := by
  rw [List.getD_eq_getElem _ _ hi]
  exact List.indexOf_getElem hnd i hi

theorem getD_indexOf_self (ws : List ℤ) (w : ℤ) (hw : w ∈ ws) :
    ws.getD (ws.indexOf w) 0 = w := by
  rw [List.getD_eq_getElem _ _ (List.indexOf_lt_length.mpr hw)]
  exact List.getElem_indexOf _

theorem lastMatrixOr_cons (a : PObs) (l : List PObs) (d : GMat) :
    lastMatrixOr (a :: l) d = lastMatrixOr l a.matrix := by
  cases l with
  | nil => rfl
  | cons x xs =>
    unfold lastMatrixOr
    rw [List.getLast?_cons_cons]
    rcases hg : (x :: xs).getLast? with _ | y
    · exact absurd hg (by simp)
    · rfl

theorem sparsePlaceLoop_ok_covered (ws : List ℤ) (obs : List PObs) :
    ∀ acc fl : List GMat, sparsePlaceLoop ws acc obs = .ok fl →
      obs.all (singleCoveredBy ws) = true := by
  induction obs with
  | nil =>
    intro acc fl _
    rfl
  | cons o rest ih =>
    intro acc fl h
    rw [sparsePlaceLoop] at h
    split at h
    · cases h
    · split at h
      · rename_i w heq
        split at h
        · rename_i hmem
          rw [List.all_cons, Bool.and_eq_true]
          refine ⟨?_, ih _ _ h⟩
          simp [singleCoveredBy, heq, hmem]
        · cases h
      · cases h

theorem sparsePlaceLoop_char (ws : List ℤ) (hnd : ws.Nodup) (obs : List PObs) :
    ∀ acc : List GMat, acc.length = ws.length →
      obs.all (singleCoveredBy ws) = true →
      ∃ fl, sparsePlaceLoop ws acc obs = .ok fl ∧ fl.length = ws.length ∧
        ∀ i, i < ws.length →
          fl.getD i [] =
            lastMatrixOr
              (obs.filter (fun o => decide (o.wires = [ws.getD i 0])))
              (acc.getD i []) := by
  induction obs with
  | nil =>
    intro acc hlen _
    exact ⟨acc, rfl, hlen, fun i _ => rfl⟩
  | cons o rest ih =>
    intro acc hlen hall
    rw [List.all_cons, Bool.and_eq_true] at hall
    obtain ⟨ho, hrest⟩ := hall
    obtain ⟨w, hw, hmem⟩ : ∃ w, o.wires = [w] ∧ w ∈ ws := by
      unfold singleCoveredBy at ho
      rcases hwires : o.wires with _ | ⟨w, _ | ⟨w2, tl⟩⟩ <;> rw [hwires] at ho
      · cases ho
      · exact ⟨w, rfl, by simpa using ho⟩
      · cases ho
    have hlen' : (acc.set (ws.indexOf w) o.matrix).length = ws.length := by
      rw [List.length_set]
      exact hlen
    obtain ⟨fl, hfl, hfllen, hchar⟩ :=
      ih (acc.set (ws.indexOf w) o.matrix) hlen' hrest
    refine ⟨fl, ?_, hfllen, ?_⟩
    · rw [sparsePlaceLoop, if_neg (by rw [hw]; simp), hw]
      show (if w ∈ ws then
          sparsePlaceLoop ws (acc.set (ws.indexOf w) o.matrix) rest
        else Except.error "wire label not found in the wire order") = Except.ok fl
      rw [if_pos hmem]
      exact hfl
    · intro i hi
      rw [hchar i hi]
      by_cases hcase : ws.getD i 0 = w
      · have hPo : decide (o.wires = [ws.getD i 0]) = true := by
          rw [hw, hcase]
          simp
        have hfil : (o :: rest).filter (fun o' : PObs => decide (o'.wires = [ws.getD i 0])) =
            o :: rest.filter (fun o' : PObs => decide (o'.wires = [ws.getD i 0])) := by
          rw [List.filter_cons, hPo]
          simp
        rw [hfil, lastMatrixOr_cons]
        congr 1
        have hieq : ws.indexOf w = i := by
          rw [← hcase]
          exact indexOf_getD_self ws hnd i hi
        rw [hieq]
        exact getD_set_self acc i o.matrix [] (by rw [hlen]; exact hi)
      · have hPo : decide (o.wires = [ws.getD i 0]) = false := by
          rw [hw]
          simp only [decide_eq_false_iff_not]
          intro hcontra
          exact hcase ((by simpa using hcontra : w = ws.getD i 0)).symm
        have hfil : (o :: rest).filter (fun o' : PObs => decide (o'.wires = [ws.getD i 0])) =
            rest.filter (fun o' : PObs => decide (o'.wires = [ws.getD i 0])) := by
          rw [List.filter_cons, hPo]
          simp
        rw [hfil]
        congr 1
        apply getD_set_ne
        intro hcontra
        apply hcase
        rw [← hcontra]
        exact getD_indexOf_self ws w hmem

theorem sparsePlaceLoop_ok_length (ws : List ℤ) (obs : List PObs) :
    ∀ acc fl : List GMat, sparsePlaceLoop ws acc obs = .ok fl →
      fl.length = acc.length := by
  induction obs with
  | nil =>
    intro acc fl h
    cases h
    rfl
  | cons o rest ih =>
    intro acc fl h
    rw [sparsePlaceLoop] at h
    split at h
    · cases h
    · split at h
      · split at h
        · have hrec := ih _ _ h
          rwa [List.length_set] at hrec
        · cases h
      · cases h

theorem sparseFactors_length (obs : List PObs) (ws : List ℤ) :
    (sparseFactors obs ws).length = ws.length := by
  simp [sparseFactors]

/-- A CZ-like two-wire observable matrix for the C2 counterexample. -/
def czMat : GMat := [[1, 0, 0, 0], [0, 1, 0, 0], [0, 0, 1, 0], [0, 0, 0, -1]]

/-- C2 (counterexample to the claim as stated): a Tensor with one two-wire
constituent on wires `[0, 1]`, contiguous with respect to the default target
ordering `[0, 1]`; the claim requires `sparse_matrix` to succeed, but the
`len(o.wires) > 1` guard (operation.py:2127-2132) raises the consecutive-wires
`ValueError` for *every* multi-wire constituent, contiguous or not. -/
theorem sparse_matrix_contiguous_counterexample :
    specContiguousIn (PObs.hermitian czMat [0, 1]).wires
        (tensorWiresOf [PObs.hermitian czMat [0, 1]]) = true ∧
    tensorSparseMatrix [PObs.hermitian czMat [0, 1]] none =
      .error "Can only compute sparse representation for tensors whose operations act on consecutive wires" :=
  ⟨by decide, rfl⟩

/-- C2 (amended): `sparse_matrix` succeeds exactly on tensors all of whose
constituents act on a *single* wire contained in the (nonempty) target wire
order — in particular it fails for every multi-wire constituent, even one
whose wire block is contiguous with respect to the target ordering — and in
the success case it returns the Kronecker product, in target-wire order, of
one factor per wire position: the matrix of the last constituent on that
wire, or a 2x2 identity for uncovered positions. -/
theorem sparse_matrix_single_wire (obs : List PObs) (target : List ℤ)
    (hnd : target.Nodup) :
    ((∃ m, tensorSparseMatrix obs (some target) = .ok m) ↔
      (target ≠ [] ∧ obs.all (singleCoveredBy target) = true)) ∧
    (obs.all (singleCoveredBy target) = true →
      tensorSparseMatrix obs (some target) =
        reduceKron (sparseFactors obs target)) := by
  have hrepl : (List.replicate target.length eye2).length = target.length :=
    List.length_replicate _ _
  constructor
  · constructor
    · rintro ⟨m, hm⟩
      unfold tensorSparseMatrix at hm
      dsimp only at hm
      rcases hres : sparsePlaceLoop target (List.replicate target.length eye2) obs
        with e | fl
      · rw [hres] at hm
        simp [Except.bind] at hm
      · rw [hres] at hm
        have hcov := sparsePlaceLoop_ok_covered target obs _ _ hres
        have hflne : fl ≠ [] := by
          rintro rfl
          simp [Except.bind, reduceKron] at hm
        have hlenfl : fl.length = target.length := by
          have hl := sparsePlaceLoop_ok_length target obs _ _ hres
          rwa [hrepl] at hl
        refine ⟨?_, hcov⟩
        rintro rfl
        exact hflne (List.length_eq_zero.mp hlenfl)
    · rintro ⟨htgt, hcov⟩
      obtain ⟨fl, hfl, hlenfl, _⟩ :=
        sparsePlaceLoop_char target hnd obs (List.replicate target.length eye2)
          hrepl hcov
      rcases hflc : fl with _ | ⟨u, us⟩
      · rw [hflc] at hlenfl
        exact absurd (List.length_eq_zero.mp hlenfl.symm) htgt
      · rw [hflc] at hfl
        refine ⟨us.foldl kronM u, ?_⟩
        unfold tensorSparseMatrix
        dsimp only
        rw [hfl]
        rfl
  · intro hcov
    obtain ⟨fl, hfl, hlenfl, hchar⟩ :=
      sparsePlaceLoop_char target hnd obs (List.replicate target.length eye2)
        hrepl hcov
    have hfeq : fl = sparseFactors obs target := by
      apply List.ext_getElem
      · rw [hlenfl, sparseFactors_length]
      · intro i h1 h2
        have hit : i < target.length := by rwa [hlenfl] at h1
        rw [← List.getD_eq_getElem fl [] h1, hchar i hit]
        simp only [sparseFactors, List.getElem_map]
        congr 1
        · rw [List.getD_eq_getElem target 0 hit]
        · rw [List.getD_eq_getElem _ _ (by simpa using hit)]
          exact List.getElem_replicate _ _
    unfold tensorSparseMatrix
    dsimp only
    rw [hfl, hfeq]
    rfl

theorem sparse_matrix_single_wire_witness :
    ((∃ m, tensorSparseMatrix [PObs.pauliX 0, PObs.pauliZ 1]
        (some [0, 1, 2]) = .ok m) ↔
      (([0, 1, 2] : List ℤ) ≠ [] ∧
        ([PObs.pauliX 0, PObs.pauliZ 1].all (singleCoveredBy [0, 1, 2]) = true))) ∧
    (([PObs.pauliX 0, PObs.pauliZ 1].all (singleCoveredBy [0, 1, 2]) = true) →
      tensorSparseMatrix [PObs.pauliX 0, PObs.pauliZ 1] (some [0, 1, 2]) =
        reduceKron (sparseFactors [PObs.pauliX 0, PObs.pauliZ 1] [0, 1, 2])) :=
  sparse_matrix_single_wire [PObs.pauliX 0, PObs.pauliZ 1] [0, 1, 2] (by decide)

theorem observable_init_last_positional_witness :
    observableInit WiresDecl.anyWires none
        ([Arg.param (1 : ℚ)] ++ [Arg.wireList [0, 1]]) none =
      operatorInit WiresDecl.anyWires none [Arg.param (1 : ℚ)]
        (some (Arg.wireList [0, 1])) ∧
    observableInit WiresDecl.anyWires none [] none =
      .error "Must specify the wires that the Observable acts on" :=
  observable_init_last_positional WiresDecl.anyWires none [Arg.param (1 : ℚ)]
    (Arg.wireList [0, 1])
